import Mathlib

/-!
Verification of the BranchBreakpoints extension core against its natural-language
specification.  The definitions below are a shallow embedding of src/types.ts and
the extension module (activate / setBreakpoints / getUpdatedBreakpoints /
getWorkspaceBreakpoints / clearBranchBreakpoints / getBreakpoint).

Modelling conventions:
  - TypeScript optional fields become Option.
  - JavaScript numbers used for line/character positions become Int (only
    equality and printing are used).
  - JavaScript exceptions become Except String.
  - JS Map (insertion-ordered, set-replaces-in-place) becomes an association
    list List (String x beta) with mapGet / mapSet below.
  - vscode host calls addBreakpoints / removeBreakpoints are modelled as list
    append and element removal on the live breakpoint list.
-/

/-- JsonUri from src/types.ts: only the path component is used. -/
structure JsonUri where
  path : String
deriving DecidableEq, Repr

/-- JsonPosition from src/types.ts. -/
structure JsonPosition where
  line : Int
  character : Int
deriving DecidableEq, Repr

/-- JsonRange from src/types.ts: a `[start, end]` tuple. -/
abbrev JsonRange := JsonPosition × JsonPosition

/-- JsonLocation from src/types.ts. -/
structure JsonLocation where
  uri : JsonUri
  range : JsonRange
deriving DecidableEq, Repr

/-- JsonBreakpoint from src/types.ts: breakpoint attributes plus optional
SourceBreakpoint data (location) or FunctionBreakpoint data (functionName). -/
structure JsonBreakpoint where
  enabled : Bool
  condition : Option String := none
  hitCondition : Option String := none
  logMessage : Option String := none
  location : Option JsonLocation := none
  functionName : Option String := none
deriving DecidableEq, Repr

/-- Branch from src/types.ts. -/
structure Branch where
  name : String
  breakpoints : List JsonBreakpoint
deriving DecidableEq, Repr

/-- BranchBreakpoints from src/types.ts (the BranchMap of the spec). -/
structure BranchBreakpoints where
  version : String
  branch : List Branch
deriving DecidableEq, Repr

/-- toStringPosition from src/types.ts. -/
def toStringPosition (position : JsonPosition) : String :=
  "(" ++ toString position.line ++ ", " ++ toString position.character ++ ")"

/-- toStringRange from src/types.ts. -/
def toStringRange (range : JsonRange) : String :=
  "[" ++ toStringPosition range.1 ++ ", " ++ toStringPosition range.2 ++ "]"

/-- isSourceBreakpoint from src/types.ts: `location !== undefined`. -/
def isSourceBreakpoint (breakpoint : JsonBreakpoint) : Bool :=
  breakpoint.location.isSome

/-- isFunctionBreakpoint from src/types.ts: `functionName !== undefined`. -/
def isFunctionBreakpoint (breakpoint : JsonBreakpoint) : Bool :=
  breakpoint.functionName.isSome

/-- areLineCharsEqual from src/types.ts. -/
def areLineCharsEqual (lineChar1 lineChar2 : JsonPosition) : Bool :=
  lineChar1.line == lineChar2.line && lineChar1.character == lineChar2.character

/-- areRangesEqual from src/types.ts. -/
def areRangesEqual (range1 range2 : JsonRange) : Bool :=
  areLineCharsEqual range1.1 range2.1 && areLineCharsEqual range1.2 range2.2

/-- areBreakpointsEqual from src/types.ts.  For two source breakpoints the
source compares uri paths, then ranges (the `instanceof SourceBreakpoint`
branch uses `range.isEqual`, the fallback branch compares the json ranges;
both are structural range equality here).  For two function breakpoints it
compares the names, otherwise it returns false. -/
def areBreakpointsEqual (breakpoint1 breakpoint2 : JsonBreakpoint) : Bool :=
  if isSourceBreakpoint breakpoint1 && isSourceBreakpoint breakpoint2 then
    match breakpoint1.location, breakpoint2.location with
    | some l1, some l2 =>
      if l1.uri.path != l2.uri.path then false
      else areRangesEqual l1.range l2.range
    | _, _ => false
  else if isFunctionBreakpoint breakpoint1 && isFunctionBreakpoint breakpoint2 then
    breakpoint1.functionName == breakpoint2.functionName
  else
    false

/-! ## Reconciler: getUpdatedBreakpoints (host-change folding) -/

/-- The added / changed / removed lists of a vscode BreakpointsChangeEvent. -/
structure BreakpointsChangeEvent where
  added : List JsonBreakpoint
  changed : List JsonBreakpoint
  removed : List JsonBreakpoint
deriving Repr

/-- JavaScript Array.prototype.findIndex: index of the first match or -1. -/
def findIndexJs {α : Type} (l : List α) (p : α → Bool) : Int :=
  match l.findIdx? p with
  | some i => (i : Int)
  | none => -1

/-- JavaScript Array.prototype.splice(start, 1): removes one element at
`start`, where a negative `start` counts from the end. -/
def spliceOne {α : Type} (l : List α) (start : Int) : List α :=
  let len : Int := l.length
  let s : Int := if start < 0 then max (len + start) 0 else min start len
  l.take s.toNat ++ l.drop (s.toNat + 1)

/-- JavaScript Array.prototype.slice(a, b) with negative-index handling. -/
def jsSlice {α : Type} (l : List α) (a b : Int) : List α :=
  let len : Int := l.length
  let s : Int := if a < 0 then max (len + a) 0 else min a len
  let e : Int := if b < 0 then max (len + b) 0 else min b len
  (l.take e.toNat).drop s.toNat

/-- One iteration of the `e.changed` loop of getUpdatedBreakpoints:
findIndex, splice(index, 1), then rebuild the list from two slices of the
already-spliced array around the replacement breakpoint. -/
def processChangedOne (bps : List JsonBreakpoint) (breakpoint : JsonBreakpoint) :
    List JsonBreakpoint :=
  let index := findIndexJs bps (fun x => areBreakpointsEqual x breakpoint)
  let spliced := spliceOne bps index
  jsSlice spliced 0 index ++ [breakpoint] ++ jsSlice spliced (index + 1) spliced.length

/-- One iteration of the `e.removed` loop of getUpdatedBreakpoints:
findIndex then splice(index, 1). -/
def processRemovedOne (bps : List JsonBreakpoint) (breakpoint : JsonBreakpoint) :
    List JsonBreakpoint :=
  spliceOne bps (findIndexJs bps (fun x => areBreakpointsEqual x breakpoint))

/-- getUpdatedBreakpoints from the extension module.  Returns none (JS
`undefined`) when the branch is locked; otherwise folds the event's added /
changed / removed lists into the branch entry for `head` and returns the
updated map. -/
def getUpdatedBreakpoints (e : BreakpointsChangeEvent) (isBranchLocked : Bool)
    (branchBreakpoints : BranchBreakpoints) (head : String) :
    Option BranchBreakpoints :=
  if isBranchLocked then none
  else
    let idx? := branchBreakpoints.branch.findIdx? (fun x => x.name = head)
    let branch : Branch :=
      match idx? with
      | some i => branchBreakpoints.branch.getD i ⟨head, []⟩
      | none => ⟨head, []⟩
    let bps1 := e.added.foldl
      (fun acc breakpoint =>
        if (acc.find? (fun x => areBreakpointsEqual breakpoint x)).isSome then acc
        else acc ++ [breakpoint])
      branch.breakpoints
    let bps2 := e.changed.foldl processChangedOne bps1
    let bps3 := e.removed.foldl processRemovedOne bps2
    let newBranch : Branch := ⟨branch.name, bps3⟩
    let updatedBranches :=
      match idx? with
      | some i => branchBreakpoints.branch.set i newBranch
      | none => branchBreakpoints.branch ++ [newBranch]
    some ⟨branchBreakpoints.version, updatedBranches⟩

/-! ## Reconciler: getBreakpoint and setBreakpoints (applyBranch) -/

/-- getBreakpoint from the extension module: materializes a stored json
breakpoint into a live breakpoint object.  `if (location)` is always taken for
a present location object; `else if (functionName)` is JS truthiness, so an
empty functionName string falls through to the throw.  Uri.parse on the stored
path is modelled as preserving the path (faithful for absolute file paths). -/
def getBreakpoint (breakpoint : JsonBreakpoint) : Except String JsonBreakpoint :=
  match breakpoint.location with
  | some location =>
    .ok { enabled := breakpoint.enabled, condition := breakpoint.condition,
          hitCondition := breakpoint.hitCondition, logMessage := breakpoint.logMessage,
          location := some location, functionName := none }
  | none =>
    match breakpoint.functionName with
    | some functionName =>
      if functionName ≠ "" then
        .ok { enabled := breakpoint.enabled, condition := breakpoint.condition,
              hitCondition := breakpoint.hitCondition, logMessage := breakpoint.logMessage,
              location := none, functionName := some functionName }
      else .error "location or functionName has not been defined on the breakpoint."
    | none => .error "location or functionName has not been defined on the breakpoint."

/-- `jsonBreakpoints.map(getBreakpoint)`: left-to-right materialization where
the first thrown error aborts the whole map. -/
def materializeAll : List JsonBreakpoint → Except String (List JsonBreakpoint)
  | [] => .ok []
  | breakpoint :: rest =>
    match getBreakpoint breakpoint with
    | .error e => .error e
    | .ok b =>
      match materializeAll rest with
      | .error e => .error e
      | .ok bs => .ok (b :: bs)

/-- Result of one setBreakpoints call: the Applying flag after the call, the
resulting live breakpoint list of the host, and the propagated error if the
body threw. -/
structure ApplyResult where
  isBranchLocked : Bool
  live : List JsonBreakpoint
  errorMsg : Option String
deriving DecidableEq, Repr

/-- The try-block body of setBreakpoints: look up the stored list for `head`;
if missing or empty do nothing; otherwise materialize the stored entries,
compute toRemove (current host breakpoints with no equal counterpart in the
materialized list) and toAdd (materialized breakpoints with no equal
counterpart in the current host list), then apply add-then-remove to the
host's live list. -/
def setBreakpointsBody (branchBreakpoints : BranchBreakpoints) (head : String)
    (curBreakpoints : List JsonBreakpoint) : Except String (List JsonBreakpoint) :=
  let branchBreakpoint := branchBreakpoints.branch.find? (fun x => x.name = head)
  match branchBreakpoint.map (fun b => b.breakpoints) with
  | some jsonBreakpoints =>
    if jsonBreakpoints.length ≠ 0 then
      match materializeAll jsonBreakpoints with
      | .error e => .error e
      | .ok newBreakpoints =>
        let toRemove := curBreakpoints.filter
          (fun breakpoint => !(newBreakpoints.any (fun x => areBreakpointsEqual breakpoint x)))
        let toAdd := newBreakpoints.filter
          (fun breakpoint => !(curBreakpoints.any (fun x => areBreakpointsEqual breakpoint x)))
        .ok ((curBreakpoints ++ toAdd).filter (fun b => !(decide (b ∈ toRemove))))
    else .ok curBreakpoints
  | none => .ok curBreakpoints

/-- setBreakpoints from the extension module: sets isBranchLocked, runs the
body, and resets isBranchLocked in the `finally` block on every exit path
(normal, empty-list no-op, and thrown error).  A thrown error leaves the
host's live list untouched because it happens before any add/remove call. -/
def setBreakpoints (branchBreakpoints : BranchBreakpoints) (head : String)
    (curBreakpoints : List JsonBreakpoint) : ApplyResult :=
  match setBreakpointsBody branchBreakpoints head curBreakpoints with
  | .ok live => { isBranchLocked := false, live := live, errorMsg := none }
  | .error e => { isBranchLocked := false, live := curBreakpoints, errorMsg := some e }

/-! ## Store commands: clearBranchBreakpoints / getInitialBranchBreakpoints -/

/-- The workspaceState key-value store, restricted to the single fixed key
`breakpointMap` that the extension uses. -/
structure WorkspaceState where
  breakpointMap : Option BranchBreakpoints
deriving DecidableEq, Repr

/-- getInitialBranchBreakpoints from the extension module: the package
version (the spec's current schema version) with an empty branch list. -/
def getInitialBranchBreakpoints (packageVersion : String) : BranchBreakpoints :=
  ⟨packageVersion, []⟩

/-- clearBranchBreakpoints from the extension module: the in-memory map is
reset to the initial map (the argument is discarded) and the persisted blob is
erased (`workspaceState.update(key, undefined)`). -/
def clearBranchBreakpoints (packageVersion : String)
    (branchBreakpoints : BranchBreakpoints) (st : WorkspaceState) :
    BranchBreakpoints × WorkspaceState :=
  let _ := branchBreakpoints
  let _ := st
  (getInitialBranchBreakpoints packageVersion, ⟨none⟩)

/-! ## Dedup/Migration pass: getWorkspaceBreakpoints -/

/-- The DuplicateBreakpoints record of getWorkspaceBreakpoints: the breakpoint
currently stored for a (path, rangeStr) key and how many were seen. -/
structure DuplicateBreakpoints where
  breakpoint : JsonBreakpoint
  count : Nat
deriving DecidableEq, Repr

/-- A JS Map in insertion order: get returns the first (unique) binding. -/
def mapGet {β : Type} (m : List (String × β)) (k : String) : Option β :=
  (m.find? (fun e => e.1 = k)).map (fun e => e.2)

/-- A JS Map in insertion order: set replaces the binding in place when the
key is present, else appends a new binding. -/
def mapSet {β : Type} : List (String × β) → String → β → List (String × β)
  | [], k, v => [(k, v)]
  | e :: rest, k, v => if e.1 = k then (k, v) :: rest else e :: mapSet rest k v

/-- The inner range-keyed map of the dedup pass. -/
abbrev RangeMap := List (String × DuplicateBreakpoints)

/-- The outer path-keyed map of the dedup pass. -/
abbrev LocationPathMap := List (String × RangeMap)

/-- The function-name-keyed map of the dedup pass. -/
abbrev FunctionNameMap := List (String × List JsonBreakpoint)

/-- One iteration of the partitioning loop of getWorkspaceBreakpoints: a
breakpoint with both location and functionName set is only logged; a location
breakpoint is keyed by (path, stringified range), replacing any previous entry
and incrementing its count; a function breakpoint is appended to its name's
list; a breakpoint with neither field is ignored. -/
def scanStep (acc : LocationPathMap × FunctionNameMap) (breakpoint : JsonBreakpoint) :
    LocationPathMap × FunctionNameMap :=
  match breakpoint.location, breakpoint.functionName with
  | some _, some _ => acc
  | some loc, none =>
    let path := loc.uri.path
    let rangeStr := toStringRange loc.range
    let rangeMap := (mapGet acc.1 path).getD []
    let duplicateBreakpoints : DuplicateBreakpoints :=
      match mapGet rangeMap rangeStr with
      | none => ⟨breakpoint, 1⟩
      | some d => ⟨breakpoint, d.count + 1⟩
    (mapSet acc.1 path (mapSet rangeMap rangeStr duplicateBreakpoints), acc.2)
  | none, some func =>
    (acc.1,
      match mapGet acc.2 func with
      | none => acc.2 ++ [(func, [breakpoint])]
      | some arr => mapSet acc.2 func (arr ++ [breakpoint]))
  | none, none => acc

/-- The two keyed structures built from a branch's breakpoint list. -/
def scanMaps (breakpoints : List JsonBreakpoint) : LocationPathMap × FunctionNameMap :=
  breakpoints.foldl scanStep ([], [])

/-- The needsRecreate flag of getWorkspaceBreakpoints: some location key saw
more than one breakpoint, or some function name's list has more than one. -/
def needsRecreateOf (maps : LocationPathMap × FunctionNameMap) : Bool :=
  maps.1.any (fun prm => prm.2.any (fun rd => decide (1 < rd.2.count))) ||
  maps.2.any (fun fa => decide (1 < fa.2.length))

/-- The recreated breakpoint list of getWorkspaceBreakpoints: the retained
location breakpoints in map-iteration order, then the first function
breakpoint of each name. -/
def rebuildBreakpoints (maps : LocationPathMap × FunctionNameMap) :
    List JsonBreakpoint :=
  maps.1.flatMap (fun prm => prm.2.map (fun rd => rd.2.breakpoint)) ++
  maps.2.flatMap (fun fa => fa.2.take 1)

/-- The per-branch body of getWorkspaceBreakpoints: partition, check for
duplicates, and recreate the list only when a duplicate was found. -/
def dedupBranch (breakpoints : List JsonBreakpoint) : List JsonBreakpoint × Bool :=
  let maps := scanMaps breakpoints
  if needsRecreateOf maps then (rebuildBreakpoints maps, true) else (breakpoints, false)

/-- getWorkspaceBreakpoints from the extension module: load the stored map (or
the initial one), clear it when the version field is falsy (setting version
0.0.2), then run the dedup pass over every branch, returning the map and the
recreated flag. -/
def getWorkspaceBreakpoints (stored : Option BranchBreakpoints)
    (packageVersion : String) : BranchBreakpoints × Bool :=
  let branchBreakpoints := stored.getD (getInitialBranchBreakpoints packageVersion)
  let branchBreakpoints :=
    if branchBreakpoints.version = "" then ⟨"0.0.2", []⟩ else branchBreakpoints
  let processed := branchBreakpoints.branch.map (fun br =>
    let r := dedupBranch br.breakpoints
    ((⟨br.name, r.1⟩ : Branch), r.2))
  (⟨branchBreakpoints.version, processed.map (fun p => p.1)⟩,
    processed.any (fun p => p.2))

/-! ## Keys of a breakpoint as used by the dedup pass -/

/-- The (path, stringified range) key under which the partitioning loop files
a breakpoint, defined exactly when the loop's location branch is taken. -/
def locKey (breakpoint : JsonBreakpoint) : Option (String × String) :=
  match breakpoint.location, breakpoint.functionName with
  | some loc, none => some (loc.uri.path, toStringRange loc.range)
  | _, _ => none

/-- The function-name key under which the partitioning loop files a
breakpoint, defined exactly when the loop's function branch is taken. -/
def funKey (breakpoint : JsonBreakpoint) : Option String :=
  match breakpoint.location, breakpoint.functionName with
  | none, some f => some f
  | _, _ => none

/-- Lookup through both levels of the location map. -/
def lookupLoc (lm : LocationPathMap) (p r : String) : Option DuplicateBreakpoints :=
  (mapGet lm p).bind (fun rm => mapGet rm r)

example : areBreakpointsEqual
    { enabled := true, location := some ⟨⟨"/a.ts"⟩, (⟨1, 0⟩, ⟨1, 5⟩)⟩ }
    { enabled := false, location := some ⟨⟨"/a.ts"⟩, (⟨1, 0⟩, ⟨1, 5⟩)⟩ } = true := by
  decide

example : areBreakpointsEqual
    { enabled := true, functionName := some "f" }
    { enabled := true, location := some ⟨⟨"/a.ts"⟩, (⟨1, 0⟩, ⟨1, 5⟩)⟩ } = false := by
  decide

example :
    dedupBranch
      [{ enabled := true, location := some ⟨⟨"/b.ts"⟩, (⟨2, 0⟩, ⟨2, 0⟩)⟩ },
       { enabled := false, location := some ⟨⟨"/b.ts"⟩, (⟨2, 0⟩, ⟨2, 0⟩)⟩ }] =
    ([{ enabled := false, location := some ⟨⟨"/b.ts"⟩, (⟨2, 0⟩, ⟨2, 0⟩)⟩ }], true) := by
  decide

/-! ## Concrete example inputs used by individual claims -/

/-- A stored source breakpoint at /a.ts [(1,0),(1,5)] for claim C1. -/
def exC1Stored : JsonBreakpoint :=
  { enabled := true, location := some ⟨⟨"/a.ts"⟩, (⟨1, 0⟩, ⟨1, 5⟩)⟩ }

/-- A function breakpoint, not equal to exC1Stored, for claim C1. -/
def exC1Removed : JsonBreakpoint :=
  { enabled := true, functionName := some "f" }

/-- The branch map holding only exC1Stored under branch main, for claim C1. -/
def exC1Map : BranchBreakpoints := ⟨"0.0.2", [⟨"main", [exC1Stored]⟩]⟩

/-- CLAIM C1 (code behavior at the failing input): the spec says a "removed"
event whose breakpoint has no equal stored counterpart is a silent no-op, but
findIndex returns -1 and splice(-1, 1) then deletes the LAST stored
breakpoint: a removed event for an unmatched function breakpoint empties the
stored one-element list for the current branch. -/
theorem C1_unmatched_removed_deletes_last :
    areBreakpointsEqual exC1Stored exC1Removed = false ∧
    getUpdatedBreakpoints ⟨[], [], [exC1Removed]⟩ false exC1Map "main" =
      some ⟨"0.0.2", [⟨"main", []⟩]⟩ := by
  constructor
  · decide
  · decide

/-- CLAIM C6: while the Reconciler is in the Applying state
(isBranchLocked = true), getUpdatedBreakpoints returns no update for any
event, map and branch name, so the BranchMap is left unchanged. -/
theorem C6_locked_is_noop (e : BreakpointsChangeEvent)
    (branchBreakpoints : BranchBreakpoints) (head : String) :
    getUpdatedBreakpoints e true branchBreakpoints head = none := by
  rfl

/-- CLAIM C7: on every exit path of setBreakpoints (normal completion, the
empty-list no-op, and the error exit thrown by getBreakpoint when neither
location nor functionName is usable) the Applying flag is false when the
operation returns. -/
theorem C7_lock_always_released (branchBreakpoints : BranchBreakpoints)
    (head : String) (curBreakpoints : List JsonBreakpoint) :
    (setBreakpoints branchBreakpoints head curBreakpoints).isBranchLocked = false := by
  unfold setBreakpoints
  cases setBreakpointsBody branchBreakpoints head curBreakpoints <;> rfl

/-- A populated workspace state for claim C9's counterexample. -/
def exC9State : WorkspaceState :=
  ⟨some ⟨"0.0.1", [⟨"main", [exC1Stored]⟩]⟩⟩

/-- CLAIM C9 (counterexample): after the clear-map command the persisted blob
under the fixed key is NOT an empty branch list with the current schema
version; the command erases the blob (stores undefined). -/
theorem C9_counterexample :
    ¬ ((clearBranchBreakpoints "0.0.2" ⟨"0.0.1", [⟨"main", [exC1Stored]⟩]⟩
          exC9State).2.breakpointMap =
        some ⟨"0.0.2", []⟩) := by
  decide

/-- CLAIM C9 (amended): after the clear-map command the in-memory BranchMap is
the empty branch list carrying the current schema version, and the persisted
blob under the fixed key is erased (absent); a later load then falls back to
the initial empty map. -/
theorem C9_clear_map (packageVersion : String)
    (branchBreakpoints : BranchBreakpoints) (st : WorkspaceState) :
    (clearBranchBreakpoints packageVersion branchBreakpoints st).1 =
        ⟨packageVersion, []⟩ ∧
      (clearBranchBreakpoints packageVersion branchBreakpoints st).2.breakpointMap =
        none := by
  exact ⟨rfl, rfl⟩

/-- CLAIM C10: a breakpoint with neither location nor functionName defined is
never equal to any breakpoint, in either argument position — in particular
equality is not reflexive on it, so it can never be found as a match by the
reconcile and dedup lookups, which all go through areBreakpointsEqual. -/
theorem C10_malformed_never_equal (b : JsonBreakpoint)
    (hloc : b.location = none) (hfun : b.functionName = none)
    (b' : JsonBreakpoint) :
    areBreakpointsEqual b b' = false ∧ areBreakpointsEqual b' b = false := by
  unfold areBreakpointsEqual isSourceBreakpoint isFunctionBreakpoint
  rw [hloc, hfun]
  simp

/-- Witness for C10 at a concrete malformed breakpoint compared with itself:
equality is not even reflexive there. -/
theorem C10_witness :
    areBreakpointsEqual { enabled := true } { enabled := true } = false ∧
    areBreakpointsEqual { enabled := true } { enabled := true } = false :=
  C10_malformed_never_equal { enabled := true } rfl rfl { enabled := true }

/-! ## Properties of areBreakpointsEqual -/

theorem areLineCharsEqual_iff (p q : JsonPosition) :
    areLineCharsEqual p q = true ↔ p = q := by
  cases p; cases q
  simp [areLineCharsEqual, JsonPosition.mk.injEq, and_comm]

theorem areRangesEqual_iff (r1 r2 : JsonRange) :
    areRangesEqual r1 r2 = true ↔ r1 = r2 := by
  cases r1; cases r2
  simp [areRangesEqual, areLineCharsEqual_iff, Prod.ext_iff]

theorem areRangesEqual_refl (r : JsonRange) : areRangesEqual r r = true := by
  simp [areRangesEqual_iff]

/-- When both breakpoints carry a location, areBreakpointsEqual is path
equality plus range equality, regardless of the functionName fields. -/
theorem areBreakpointsEqual_src_iff (a b : JsonBreakpoint) (la lb : JsonLocation)
    (ha : a.location = some la) (hb : b.location = some lb) :
    areBreakpointsEqual a b = true ↔ la.uri.path = lb.uri.path ∧ la.range = lb.range := by
  unfold areBreakpointsEqual isSourceBreakpoint
  rw [ha, hb]
  by_cases hp : la.uri.path = lb.uri.path
  · simp [hp, areRangesEqual_iff]
  · simp [hp]

/-- When the first breakpoint carries no location, the source branch of
areBreakpointsEqual cannot fire and equality is equality of the functionName
fields provided both are present. -/
theorem areBreakpointsEqual_fun_iff1 (a b : JsonBreakpoint)
    (ha : a.location = none) :
    areBreakpointsEqual a b = true ↔
      a.functionName.isSome ∧ a.functionName = b.functionName ∧ b.functionName.isSome := by
  unfold areBreakpointsEqual isSourceBreakpoint isFunctionBreakpoint
  rw [ha]
  cases hfa : a.functionName <;> cases hfb : b.functionName <;> simp

/-- Same with the second breakpoint carrying no location. -/
theorem areBreakpointsEqual_fun_iff2 (a b : JsonBreakpoint)
    (hb : b.location = none) :
    areBreakpointsEqual a b = true ↔
      a.functionName.isSome ∧ a.functionName = b.functionName ∧ b.functionName.isSome := by
  unfold areBreakpointsEqual isSourceBreakpoint isFunctionBreakpoint
  rw [hb]
  cases hfa : a.functionName <;> cases hfb : b.functionName <;> simp

/-- When neither breakpoint carries a location, areBreakpointsEqual is
equality of the functionName fields provided both are present. -/
theorem areBreakpointsEqual_fun_iff (a b : JsonBreakpoint)
    (ha : a.location = none) (_hb : b.location = none) :
    areBreakpointsEqual a b = true ↔
      a.functionName.isSome ∧ a.functionName = b.functionName ∧ b.functionName.isSome :=
  areBreakpointsEqual_fun_iff1 a b ha

/-- A breakpoint with a location and no functionName is never equal to a
breakpoint without a location, in either order. -/
theorem areBreakpointsEqual_mixed (a b : JsonBreakpoint) (ha : a.location.isSome)
    (hafn : a.functionName = none) (hb : b.location = none) :
    areBreakpointsEqual a b = false ∧ areBreakpointsEqual b a = false := by
  unfold areBreakpointsEqual isSourceBreakpoint isFunctionBreakpoint
  rw [hafn, hb]
  cases hla : a.location <;> simp_all

theorem boolExt {x y : Bool} (h : x = true ↔ y = true) : x = y := by
  cases x <;> cases y <;> simp_all

/-- areBreakpointsEqual is symmetric (on all inputs: both branch guards are
symmetric in the two arguments, as are the underlying comparisons). -/
theorem areBreakpointsEqual_symm (a b : JsonBreakpoint) :
    areBreakpointsEqual a b = areBreakpointsEqual b a := by
  apply boolExt
  cases hla : a.location with
  | some la =>
    cases hlb : b.location with
    | some lb =>
      rw [areBreakpointsEqual_src_iff a b la lb hla hlb,
          areBreakpointsEqual_src_iff b a lb la hlb hla]
      constructor <;> exact fun h => ⟨h.1.symm, h.2.symm⟩
    | none =>
      unfold areBreakpointsEqual isSourceBreakpoint isFunctionBreakpoint
      rw [hla, hlb]
      cases hfa : a.functionName <;> cases hfb : b.functionName <;>
        simp [beq_iff_eq]
      exact eq_comm
  | none =>
    cases hlb : b.location with
    | some lb =>
      unfold areBreakpointsEqual isSourceBreakpoint isFunctionBreakpoint
      rw [hla, hlb]
      cases hfa : a.functionName <;> cases hfb : b.functionName <;>
        simp [beq_iff_eq]
      exact eq_comm
    | none =>
      rw [areBreakpointsEqual_fun_iff a b hla hlb,
          areBreakpointsEqual_fun_iff b a hlb hla]
      constructor <;> exact fun h => ⟨h.2.2, h.2.1.symm, h.1⟩

/-- The spec's Source variant: a location and no functionName. -/
def IsSourceKind (b : JsonBreakpoint) : Prop :=
  b.location.isSome ∧ b.functionName = none

/-- The spec's Function variant: a functionName and no location. -/
def IsFunctionKind (b : JsonBreakpoint) : Prop :=
  b.location = none ∧ b.functionName.isSome

/-- CLAIM C8: areBreakpointsEqual is an equivalence relation within each
breakpoint kind — reflexive, symmetric and transitive on (path, range) for
Source breakpoints and on functionName for Function breakpoints — and a
Source breakpoint and a Function breakpoint are never equal, in either
order. -/
theorem C8_equality_is_equivalence_per_kind (a b c d e f : JsonBreakpoint)
    (hsa : IsSourceKind a) (hsb : IsSourceKind b) (hsc : IsSourceKind c)
    (hfd : IsFunctionKind d) (hfe : IsFunctionKind e) (hff : IsFunctionKind f) :
    areBreakpointsEqual a a = true ∧
    (areBreakpointsEqual a b = true → areBreakpointsEqual b a = true) ∧
    (areBreakpointsEqual a b = true → areBreakpointsEqual b c = true →
      areBreakpointsEqual a c = true) ∧
    areBreakpointsEqual d d = true ∧
    (areBreakpointsEqual d e = true → areBreakpointsEqual e d = true) ∧
    (areBreakpointsEqual d e = true → areBreakpointsEqual e f = true →
      areBreakpointsEqual d f = true) ∧
    areBreakpointsEqual a d = false ∧ areBreakpointsEqual d a = false := by
  obtain ⟨hal, hafn⟩ := hsa
  obtain ⟨hbl, hbfn⟩ := hsb
  obtain ⟨hcl, hcfn⟩ := hsc
  obtain ⟨hdl, hdfn⟩ := hfd
  obtain ⟨hel, hefn⟩ := hfe
  obtain ⟨hfl, hffn⟩ := hff
  obtain ⟨la, hla⟩ := Option.isSome_iff_exists.mp hal
  obtain ⟨lb, hlb⟩ := Option.isSome_iff_exists.mp hbl
  obtain ⟨lc, hlc⟩ := Option.isSome_iff_exists.mp hcl
  refine ⟨?_, ?_, ?_, ?_, ?_, ?_, ?_⟩
  · exact (areBreakpointsEqual_src_iff a a la la hla hla).mpr ⟨rfl, rfl⟩
  · intro h
    obtain ⟨h1, h2⟩ := (areBreakpointsEqual_src_iff a b la lb hla hlb).mp h
    exact (areBreakpointsEqual_src_iff b a lb la hlb hla).mpr ⟨h1.symm, h2.symm⟩
  · intro h1 h2
    obtain ⟨h11, h12⟩ := (areBreakpointsEqual_src_iff a b la lb hla hlb).mp h1
    obtain ⟨h21, h22⟩ := (areBreakpointsEqual_src_iff b c lb lc hlb hlc).mp h2
    exact (areBreakpointsEqual_src_iff a c la lc hla hlc).mpr
      ⟨h11.trans h21, h12.trans h22⟩
  · exact (areBreakpointsEqual_fun_iff d d hdl hdl).mpr ⟨hdfn, rfl, hdfn⟩
  · intro h
    obtain ⟨h1, h2, h3⟩ := (areBreakpointsEqual_fun_iff d e hdl hel).mp h
    exact (areBreakpointsEqual_fun_iff e d hel hdl).mpr ⟨h3, h2.symm, h1⟩
  · intro h1 h2
    obtain ⟨h11, h12, h13⟩ := (areBreakpointsEqual_fun_iff d e hdl hel).mp h1
    obtain ⟨h21, h22, h23⟩ := (areBreakpointsEqual_fun_iff e f hel hfl).mp h2
    exact (areBreakpointsEqual_fun_iff d f hdl hfl).mpr ⟨h11, h12.trans h22, h23⟩
  · exact areBreakpointsEqual_mixed a d hal hafn hdl

/-- Witness for C8 at concrete breakpoints of each kind. -/
theorem C8_witness :
    areBreakpointsEqual exC1Stored exC1Stored = true ∧
    (areBreakpointsEqual exC1Stored exC1Stored = true →
      areBreakpointsEqual exC1Stored exC1Stored = true) ∧
    (areBreakpointsEqual exC1Stored exC1Stored = true →
      areBreakpointsEqual exC1Stored exC1Stored = true →
      areBreakpointsEqual exC1Stored exC1Stored = true) ∧
    areBreakpointsEqual exC1Removed exC1Removed = true ∧
    (areBreakpointsEqual exC1Removed exC1Removed = true →
      areBreakpointsEqual exC1Removed exC1Removed = true) ∧
    (areBreakpointsEqual exC1Removed exC1Removed = true →
      areBreakpointsEqual exC1Removed exC1Removed = true →
      areBreakpointsEqual exC1Removed exC1Removed = true) ∧
    areBreakpointsEqual exC1Stored exC1Removed = false ∧
    areBreakpointsEqual exC1Removed exC1Stored = false :=
  C8_equality_is_equivalence_per_kind exC1Stored exC1Stored exC1Stored
    exC1Removed exC1Removed exC1Removed
    ⟨by decide, by decide⟩ ⟨by decide, by decide⟩ ⟨by decide, by decide⟩
    ⟨by decide, by decide⟩ ⟨by decide, by decide⟩ ⟨by decide, by decide⟩

/-! ## Materialization lemmas for setBreakpoints -/

/-- The inputs on which getBreakpoint does not throw: a location is present,
or a non-empty (JS-truthy) functionName is present. -/
def canInstantiate (breakpoint : JsonBreakpoint) : Bool :=
  breakpoint.location.isSome ||
    (match breakpoint.functionName with
     | some f => decide (f ≠ "")
     | none => false)

/-- Shape of a successfully materialized breakpoint: it copies the
attributes, and carries either the stored location (and no functionName) or
the stored non-empty functionName (and no location). -/
theorem getBreakpoint_ok_shape (s n : JsonBreakpoint)
    (h : getBreakpoint s = .ok n) :
    (∃ l, s.location = some l ∧ n.location = some l ∧ n.functionName = none) ∨
    (∃ f, s.location = none ∧ s.functionName = some f ∧ f ≠ "" ∧
      n.location = none ∧ n.functionName = some f) := by
  cases hl : s.location with
  | some l =>
    simp only [getBreakpoint, hl] at h
    left
    exact ⟨l, rfl, by cases h; rfl, by cases h; rfl⟩
  | none =>
    cases hf : s.functionName with
    | some f =>
      simp only [getBreakpoint, hl, hf] at h
      by_cases hfe : f ≠ ""
      · rw [if_pos hfe] at h
        right
        exact ⟨f, rfl, rfl, hfe, by cases h; rfl, by cases h; rfl⟩
      · rw [if_neg hfe] at h
        cases h
    | none =>
      simp only [getBreakpoint, hl, hf] at h
      cases h

/-- getBreakpoint succeeds exactly on canInstantiate inputs. -/
theorem getBreakpoint_ok_of_canInstantiate (s : JsonBreakpoint)
    (h : canInstantiate s = true) : ∃ n, getBreakpoint s = .ok n := by
  unfold canInstantiate at h
  cases hl : s.location with
  | some l =>
    exact ⟨{ enabled := s.enabled, condition := s.condition, hitCondition := s.hitCondition,
             logMessage := s.logMessage, location := some l, functionName := none },
           by simp only [getBreakpoint, hl]⟩
  | none =>
    rw [hl] at h
    cases hf : s.functionName with
    | some f =>
      rw [hf] at h
      simp only [Option.isSome_none, Bool.false_or, decide_eq_true_eq] at h
      exact ⟨{ enabled := s.enabled, condition := s.condition, hitCondition := s.hitCondition,
               logMessage := s.logMessage, location := none, functionName := some f },
             by simp only [getBreakpoint, hl, hf]; rw [if_pos h]⟩
    | none => rw [hf] at h; simp at h

/-- A materialized breakpoint is equal (under areBreakpointsEqual) to the
stored breakpoint it was materialized from, in both orders. -/
theorem eq_mat_self (s n : JsonBreakpoint) (h : getBreakpoint s = .ok n) :
    areBreakpointsEqual n s = true ∧ areBreakpointsEqual s n = true := by
  rcases getBreakpoint_ok_shape s n h with ⟨l, hsl, hnl, _⟩ | ⟨f, hsl, hsf, _, hnl, hnf⟩
  · constructor
    · exact (areBreakpointsEqual_src_iff n s l l hnl hsl).mpr ⟨rfl, rfl⟩
    · exact (areBreakpointsEqual_src_iff s n l l hsl hnl).mpr ⟨rfl, rfl⟩
  · constructor
    · exact (areBreakpointsEqual_fun_iff n s hnl hsl).mpr
        ⟨by rw [hnf]; rfl, by rw [hnf, hsf], by rw [hsf]; rfl⟩
    · exact (areBreakpointsEqual_fun_iff s n hsl hnl).mpr
        ⟨by rw [hsf]; rfl, by rw [hnf, hsf], by rw [hnf]; rfl⟩

/-- A materialized breakpoint is equal to itself. -/
theorem eq_mat_refl (s n : JsonBreakpoint) (h : getBreakpoint s = .ok n) :
    areBreakpointsEqual n n = true := by
  rcases getBreakpoint_ok_shape s n h with ⟨l, _, hnl, _⟩ | ⟨f, _, _, _, hnl, hnf⟩
  · exact (areBreakpointsEqual_src_iff n n l l hnl hnl).mpr ⟨rfl, rfl⟩
  · exact (areBreakpointsEqual_fun_iff n n hnl hnl).mpr ⟨by rw [hnf]; rfl, rfl, by rw [hnf]; rfl⟩

/-- Anything equal to a materialized breakpoint is equal to the stored
breakpoint it came from (the materialized object is a well-formed middle
element for transitivity). -/
theorem eq_of_eq_mat (s n a : JsonBreakpoint) (h : getBreakpoint s = .ok n)
    (ha : areBreakpointsEqual a n = true) : areBreakpointsEqual a s = true := by
  rcases getBreakpoint_ok_shape s n h with ⟨l, hsl, hnl, hnf⟩ | ⟨f, hsl, hsf, _, hnl, hnf⟩
  · cases hal : a.location with
    | some la =>
      obtain ⟨h1, h2⟩ := (areBreakpointsEqual_src_iff a n la l hal hnl).mp ha
      exact (areBreakpointsEqual_src_iff a s la l hal hsl).mpr ⟨h1, h2⟩
    | none =>
      exact absurd ha (by
        rw [(areBreakpointsEqual_mixed n a (by rw [hnl]; rfl) hnf hal).2]
        simp)
  · obtain ⟨h1, h2, _⟩ := (areBreakpointsEqual_fun_iff2 a n hnl).mp ha
    exact (areBreakpointsEqual_fun_iff2 a s hsl).mpr
      ⟨h1, by rw [h2, hnf, hsf], by rw [hsf]; rfl⟩

/-- materializeAll succeeds when every entry canInstantiate. -/
theorem materializeAll_ok (l : List JsonBreakpoint)
    (h : ∀ bp ∈ l, canInstantiate bp = true) :
    ∃ l2, materializeAll l = .ok l2 := by
  induction l with
  | nil => exact ⟨[], rfl⟩
  | cons bp rest ih =>
    obtain ⟨n, hn⟩ := getBreakpoint_ok_of_canInstantiate bp (h bp (List.mem_cons_self bp rest))
    obtain ⟨l2, hl2⟩ := ih (fun b hb => h b (List.mem_cons_of_mem bp hb))
    exact ⟨n :: l2, by unfold materializeAll; rw [hn, hl2]⟩

/-- The two membership directions of a successful materializeAll. -/
theorem materializeAll_ok_mem (l l2 : List JsonBreakpoint)
    (h : materializeAll l = .ok l2) :
    (∀ n ∈ l2, ∃ s ∈ l, getBreakpoint s = .ok n) ∧
    (∀ s ∈ l, ∃ n ∈ l2, getBreakpoint s = .ok n) := by
  induction l generalizing l2 with
  | nil =>
    unfold materializeAll at h
    cases h
    exact ⟨fun n hn => absurd hn (List.not_mem_nil n), fun s hs => absurd hs (List.not_mem_nil s)⟩
  | cons bp rest ih =>
    unfold materializeAll at h
    cases hbp : getBreakpoint bp with
    | error e => rw [hbp] at h; cases h
    | ok n =>
      rw [hbp] at h
      cases hrest : materializeAll rest with
      | error e => rw [hrest] at h; cases h
      | ok ns =>
        rw [hrest] at h
        cases h
        obtain ⟨ih1, ih2⟩ := ih ns hrest
        constructor
        · intro m hm
          rcases List.mem_cons.mp hm with hm | hm
          · exact ⟨bp, List.mem_cons_self bp rest, hm ▸ hbp⟩
          · obtain ⟨s, hs, hsm⟩ := ih1 m hm
            exact ⟨s, List.mem_cons_of_mem bp hs, hsm⟩
        · intro s hs
          rcases List.mem_cons.mp hs with hs | hs
          · exact ⟨n, List.mem_cons_self n ns, hs ▸ hbp⟩
          · obtain ⟨m, hm, hsm⟩ := ih2 s hs
            exact ⟨m, List.mem_cons_of_mem n hm, hsm⟩

/-! ## setBreakpoints live-set results (claims C3 and C4) -/

/-- Under a found branch with a non-empty stored list whose materialization
succeeds, the live list after setBreakpoints is the current list plus toAdd,
minus toRemove. -/
theorem setBreakpoints_live (bb : BranchBreakpoints) (head : String)
    (cur : List JsonBreakpoint) (br : Branch) (newBreakpoints : List JsonBreakpoint)
    (hfind : bb.branch.find? (fun x => x.name = head) = some br)
    (hne : br.breakpoints ≠ [])
    (hmat : materializeAll br.breakpoints = .ok newBreakpoints) :
    (setBreakpoints bb head cur).live =
      (cur ++ newBreakpoints.filter
          (fun breakpoint => !(cur.any (fun x => areBreakpointsEqual breakpoint x)))).filter
        (fun b => !(decide (b ∈ cur.filter
          (fun breakpoint =>
            !(newBreakpoints.any (fun x => areBreakpointsEqual breakpoint x)))))) := by
  have hlen : br.breakpoints.length ≠ 0 := fun hc => hne (List.length_eq_zero.mp hc)
  simp only [setBreakpoints, setBreakpointsBody, hfind, Option.map_some', hmat, if_pos hlen]

/-- CLAIM C4 (amended): when every stored breakpoint for the found branch can
be materialized (a location, or a non-empty functionName), the live set after
setBreakpoints is equal to the stored list under areBreakpointsEqual: every
live breakpoint has an equal stored one and every stored breakpoint has an
equal live one, for any initial host breakpoint set. -/
theorem C4_live_set_matches_stored (bb : BranchBreakpoints) (head : String)
    (cur : List JsonBreakpoint) (br : Branch)
    (hfind : bb.branch.find? (fun x => x.name = head) = some br)
    (hne : br.breakpoints ≠ [])
    (hinst : ∀ bp ∈ br.breakpoints, canInstantiate bp = true) :
    (∀ b ∈ (setBreakpoints bb head cur).live,
        ∃ s ∈ br.breakpoints, areBreakpointsEqual b s = true) ∧
    (∀ s ∈ br.breakpoints,
        ∃ b ∈ (setBreakpoints bb head cur).live, areBreakpointsEqual s b = true) := by
  obtain ⟨newBps, hmat⟩ := materializeAll_ok br.breakpoints hinst
  obtain ⟨hmem1, hmem2⟩ := materializeAll_ok_mem br.breakpoints newBps hmat
  rw [setBreakpoints_live bb head cur br newBps hfind hne hmat]
  constructor
  · intro b hb
    obtain ⟨hmemb, hpb⟩ := List.mem_filter.mp hb
    rcases List.mem_append.mp hmemb with hcur | hadd
    · have hany : (newBps.any (fun x => areBreakpointsEqual b x)) = true := by
        by_contra hc
        rw [Bool.not_eq_true] at hc
        have hbrem : b ∈ cur.filter
            (fun breakpoint => !(newBps.any (fun x => areBreakpointsEqual breakpoint x))) :=
          List.mem_filter.mpr ⟨hcur, by rw [hc]; rfl⟩
        simp [hbrem] at hpb
      obtain ⟨n, hn, heq⟩ := List.any_eq_true.mp hany
      obtain ⟨ss, hss, hmats⟩ := hmem1 n hn
      exact ⟨ss, hss, eq_of_eq_mat ss n b hmats heq⟩
    · have hbn : b ∈ newBps := (List.mem_filter.mp hadd).1
      obtain ⟨ss, hss, hmats⟩ := hmem1 b hbn
      exact ⟨ss, hss, (eq_mat_self ss b hmats).1⟩
  · intro s hs
    obtain ⟨n, hn, hmats⟩ := hmem2 s hs
    by_cases hc : (cur.any (fun x => areBreakpointsEqual n x)) = true
    · obtain ⟨c, hcmem, heqnc⟩ := List.any_eq_true.mp hc
      have heqcn : areBreakpointsEqual c n = true := by
        rw [areBreakpointsEqual_symm]; exact heqnc
      have hcnotrem : c ∉ cur.filter
          (fun breakpoint => !(newBps.any (fun x => areBreakpointsEqual breakpoint x))) := by
        intro hmem
        have h2 := (List.mem_filter.mp hmem).2
        have hany : (newBps.any (fun x => areBreakpointsEqual c x)) = true :=
          List.any_eq_true.mpr ⟨n, hn, heqcn⟩
        simp [hany] at h2
      refine ⟨c, List.mem_filter.mpr
        ⟨List.mem_append.mpr (Or.inl hcmem), by simp [hcnotrem]⟩, ?_⟩
      have heqcs : areBreakpointsEqual c s = true := eq_of_eq_mat s n c hmats heqcn
      rw [areBreakpointsEqual_symm]; exact heqcs
    · rw [Bool.not_eq_true] at hc
      have hnadd : n ∈ newBps.filter
          (fun breakpoint => !(cur.any (fun x => areBreakpointsEqual breakpoint x))) :=
        List.mem_filter.mpr ⟨hn, by rw [hc]; rfl⟩
      have hnnotrem : n ∉ cur.filter
          (fun breakpoint => !(newBps.any (fun x => areBreakpointsEqual breakpoint x))) := by
        intro hmem
        have h2 := (List.mem_filter.mp hmem).2
        have hany : (newBps.any (fun x => areBreakpointsEqual n x)) = true :=
          List.any_eq_true.mpr ⟨n, hn, eq_mat_refl s n hmats⟩
        simp [hany] at h2
      refine ⟨n, List.mem_filter.mpr
        ⟨List.mem_append.mpr (Or.inr hnadd), by simp [hnnotrem]⟩, ?_⟩
      exact (eq_mat_self s n hmats).2

/-- A stored source breakpoint (enabled) for the claims C3 and C4. -/
def exC4Stored : JsonBreakpoint :=
  { enabled := true, location := some ⟨⟨"/w.ts"⟩, (⟨3, 0⟩, ⟨3, 2⟩)⟩ }

/-- A branch map for claim C4's witness. -/
def exC4Map : BranchBreakpoints := ⟨"0.0.2", [⟨"main", [exC4Stored]⟩]⟩

/-- Witness for C4 at a concrete map with one stored breakpoint and an empty
host set. -/
theorem C4_witness :
    (∀ b ∈ (setBreakpoints exC4Map "main" []).live,
        ∃ s ∈ (Branch.mk "main" [exC4Stored]).breakpoints, areBreakpointsEqual b s = true) ∧
    (∀ s ∈ (Branch.mk "main" [exC4Stored]).breakpoints,
        ∃ b ∈ (setBreakpoints exC4Map "main" []).live, areBreakpointsEqual s b = true) :=
  C4_live_set_matches_stored exC4Map "main" [] ⟨"main", [exC4Stored]⟩
    (by decide) (by decide) (by decide)

/-- A breakpoint with neither location nor functionName, stored for claim
C4's counterexample. -/
def exC4Malformed : JsonBreakpoint := { enabled := true }

/-- The branch map storing only the malformed breakpoint. -/
def exC4MalMap : BranchBreakpoints := ⟨"0.0.2", [⟨"main", [exC4Malformed]⟩]⟩

/-- CLAIM C4 (counterexample): with a non-empty stored list containing a
breakpoint with neither location nor functionName, setBreakpoints throws
while materializing, the live set stays empty, and the stored breakpoint has
no equal counterpart in the live set — the claimed set equality fails. -/
theorem C4_counterexample :
    (exC4MalMap.branch.find? (fun x => x.name = "main")).map Branch.breakpoints =
      some [exC4Malformed] ∧
    (setBreakpoints exC4MalMap "main" []).live = [] ∧
    (setBreakpoints exC4MalMap "main" []).errorMsg.isSome = true ∧
    ¬ ∃ b ∈ (setBreakpoints exC4MalMap "main" []).live,
        areBreakpointsEqual exC4Malformed b = true := by
  refine ⟨by decide, by decide, by decide, ?_⟩
  rintro ⟨b, hb, -⟩
  rw [show (setBreakpoints exC4MalMap "main" []).live = [] from by decide] at hb
  exact absurd hb (List.not_mem_nil b)

/-- CLAIM C3 (amended): after setBreakpoints, every live breakpoint is either
one of the host's prior breakpoint objects, left in place with its prior
attributes (this happens exactly when it has an equal stored counterpart), or
a freshly materialized stored breakpoint carrying the stored attributes.
Attributes of already-present host breakpoints are NOT overwritten from the
store. -/
theorem C3_retained_or_materialized (bb : BranchBreakpoints) (head : String)
    (cur : List JsonBreakpoint) (br : Branch)
    (hfind : bb.branch.find? (fun x => x.name = head) = some br)
    (hne : br.breakpoints ≠ [])
    (hinst : ∀ bp ∈ br.breakpoints, canInstantiate bp = true) :
    ∀ b ∈ (setBreakpoints bb head cur).live,
      b ∈ cur ∨ ∃ s ∈ br.breakpoints, getBreakpoint s = .ok b := by
  obtain ⟨newBps, hmat⟩ := materializeAll_ok br.breakpoints hinst
  obtain ⟨hmem1, _⟩ := materializeAll_ok_mem br.breakpoints newBps hmat
  rw [setBreakpoints_live bb head cur br newBps hfind hne hmat]
  intro b hb
  obtain ⟨hmemb, _⟩ := List.mem_filter.mp hb
  rcases List.mem_append.mp hmemb with hcur | hadd
  · exact Or.inl hcur
  · exact Or.inr (hmem1 b ((List.mem_filter.mp hadd).1))

/-- The same stored breakpoint as exC4Stored but disabled, living in the host
before the call, for claim C3's counterexample. -/
def exC3Host : JsonBreakpoint :=
  { enabled := false, location := some ⟨⟨"/w.ts"⟩, (⟨3, 0⟩, ⟨3, 2⟩)⟩ }

/-- CLAIM C3 (counterexample): the host's prior breakpoint at the same
(path, range) as the stored one survives setBreakpoints unchanged: the live
set is exactly the prior host object, whose enabled flag (false) differs from
the stored object's (true), so live attributes are NOT taken from the stored
objects. -/
theorem C3_counterexample :
    (setBreakpoints exC4Map "main" [exC3Host]).live = [exC3Host] ∧
    areBreakpointsEqual exC3Host exC4Stored = true ∧
    exC3Host.enabled = false ∧ exC4Stored.enabled = true := by
  decide

/-- Witness for C3 at the counterexample input: the one live breakpoint is a
retained host object. -/
theorem C3_witness :
    exC3Host ∈ [exC3Host] ∨
      ∃ s ∈ (Branch.mk "main" [exC4Stored]).breakpoints,
        getBreakpoint s = .ok exC3Host :=
  C3_retained_or_materialized exC4Map "main" [exC3Host] ⟨"main", [exC4Stored]⟩
    (by decide) (by decide) (by decide) exC3Host (by decide)

/-! ## Dedup pass: duplicate-key characterization (claim C2) -/

/-- The earlier of two duplicate location breakpoints for claim C2. -/
def exC2First : JsonBreakpoint :=
  { enabled := true, location := some ⟨⟨"/b.ts"⟩, (⟨2, 0⟩, ⟨2, 0⟩)⟩ }

/-- The later duplicate at the same (path, range), differing in enabled. -/
def exC2Second : JsonBreakpoint :=
  { enabled := false, location := some ⟨⟨"/b.ts"⟩, (⟨2, 0⟩, ⟨2, 0⟩)⟩ }

/-- CLAIM C2 (counterexample): with two duplicates at one key, the rebuilt
list retains the LAST one encountered in scan order (the dedup loop stores
the new breakpoint when it bumps the count), not the first: the claim's
first-encountered policy does not match the code. -/
theorem C2_counterexample :
    (dedupBranch [exC2First, exC2Second]).1 = [exC2Second] ∧
    (dedupBranch [exC2First, exC2Second]).2 = true ∧
    exC2Second ≠ exC2First := by
  decide

/-- Boolean form of "this breakpoint is filed under location key (p, r)". -/
def locKeyIs (p r : String) (b : JsonBreakpoint) : Bool :=
  decide (locKey b = some (p, r))

/-- Boolean form of "this breakpoint is filed under function key f". -/
def funKeyIs (f : String) (b : JsonBreakpoint) : Bool :=
  decide (funKey b = some f)

/-- Effect on a location-map lookup of scanning a batch of breakpoints whose
members filed under the looked-up key are l: no match keeps the old entry, a
match stores the last matching breakpoint and adds the number of matches to
the count. -/
def dupAfter (o : Option DuplicateBreakpoints) (l : List JsonBreakpoint) :
    Option DuplicateBreakpoints :=
  match l.getLast? with
  | none => o
  | some b => some ⟨b, (match o with | none => 0 | some d => d.count) + l.length⟩

/-- Effect on a function-map lookup of scanning breakpoints whose members
filed under the looked-up name are l: the matches are appended in order. -/
def listAfter (o : Option (List JsonBreakpoint)) (l : List JsonBreakpoint) :
    Option (List JsonBreakpoint) :=
  match l with
  | [] => o
  | _ :: _ => some (o.getD [] ++ l)

theorem mapGet_nil {β : Type} (k : String) :
    mapGet ([] : List (String × β)) k = none := rfl

theorem mapGet_cons {β : Type} (e : String × β) (m : List (String × β)) (k : String) :
    mapGet (e :: m) k = if e.1 = k then some e.2 else mapGet m k := by
  unfold mapGet
  by_cases h : e.1 = k
  · rw [List.find?_cons_of_pos _ (by simp [h]), if_pos h]; rfl
  · rw [List.find?_cons_of_neg _ (by simp [h]), if_neg h]

theorem mapGet_mapSet_self {β : Type} (m : List (String × β)) (k : String) (v : β) :
    mapGet (mapSet m k v) k = some v := by
  induction m with
  | nil => rw [show mapSet ([] : List (String × β)) k v = [(k, v)] from rfl, mapGet_cons]; simp
  | cons e rest ih =>
    unfold mapSet
    by_cases h : e.1 = k
    · rw [if_pos h, mapGet_cons]; simp
    · rw [if_neg h, mapGet_cons, if_neg h]; exact ih

theorem mapGet_mapSet_ne {β : Type} (m : List (String × β)) (k k2 : String) (v : β)
    (h : k2 ≠ k) : mapGet (mapSet m k v) k2 = mapGet m k2 := by
  induction m with
  | nil =>
    rw [show mapSet ([] : List (String × β)) k v = [(k, v)] from rfl, mapGet_cons,
      if_neg (fun hc => h hc.symm), mapGet_nil]
  | cons e rest ih =>
    unfold mapSet
    by_cases he : e.1 = k
    · rw [if_pos he, mapGet_cons, mapGet_cons, if_neg (fun hc => h hc.symm), if_neg]
      rw [he]; exact fun hc => h hc.symm
    · rw [if_neg he, mapGet_cons, mapGet_cons]
      by_cases he2 : e.1 = k2
      · rw [if_pos he2, if_pos he2]
      · rw [if_neg he2, if_neg he2]; exact ih

theorem mapGet_append_right {β : Type} (m : List (String × β)) (k : String) (v : β)
    (h : mapGet m k = none) : mapGet (m ++ [(k, v)]) k = some v := by
  induction m with
  | nil => rw [List.nil_append, mapGet_cons]; simp
  | cons e rest ih =>
    rw [mapGet_cons] at h
    rw [List.cons_append, mapGet_cons]
    by_cases he : e.1 = k
    · rw [if_pos he] at h; cases h
    · rw [if_neg he] at h ⊢; exact ih h

theorem mapGet_append_ne {β : Type} (m : List (String × β)) (k k2 : String) (v : β)
    (h : k2 ≠ k) : mapGet (m ++ [(k, v)]) k2 = mapGet m k2 := by
  induction m with
  | nil =>
    rw [List.nil_append, mapGet_cons, if_neg (fun hc => h hc.symm), mapGet_nil]
  | cons e rest ih =>
    rw [List.cons_append, mapGet_cons, mapGet_cons]
    by_cases he : e.1 = k2
    · rw [if_pos he, if_pos he]
    · rw [if_neg he, if_neg he]; exact ih

theorem mem_mapSet {β : Type} (m : List (String × β)) (k : String) (v : β)
    (x : String × β) (h : x ∈ mapSet m k v) : x ∈ m ∨ x = (k, v) := by
  induction m with
  | nil =>
    rw [show mapSet ([] : List (String × β)) k v = [(k, v)] from rfl] at h
    exact Or.inr (List.mem_singleton.mp h)
  | cons e rest ih =>
    unfold mapSet at h
    by_cases he : e.1 = k
    · rw [if_pos he] at h
      rcases List.mem_cons.mp h with h | h
      · exact Or.inr h
      · exact Or.inl (List.mem_cons_of_mem e h)
    · rw [if_neg he] at h
      rcases List.mem_cons.mp h with h | h
      · exact Or.inl (h ▸ List.mem_cons_self e rest)
      · rcases ih h with h | h
        · exact Or.inl (List.mem_cons_of_mem e h)
        · exact Or.inr h

theorem mapGet_some_mem {β : Type} (m : List (String × β)) (k : String) (v : β)
    (h : mapGet m k = some v) : (k, v) ∈ m := by
  induction m with
  | nil => cases h
  | cons e rest ih =>
    rw [mapGet_cons] at h
    by_cases he : e.1 = k
    · rw [if_pos he] at h
      have hv : e.2 = v := by cases h; rfl
      have : (k, v) = e := by rw [← he, ← hv]
      exact this ▸ List.mem_cons_self e rest
    · rw [if_neg he] at h
      exact List.mem_cons_of_mem e (ih h)

theorem dupAfter_nil (o : Option DuplicateBreakpoints) : dupAfter o [] = o := rfl

theorem dupAfter_append (o : Option DuplicateBreakpoints)
    (l1 l2 : List JsonBreakpoint) :
    dupAfter (dupAfter o l1) l2 = dupAfter o (l1 ++ l2) := by
  cases l2 with
  | nil => rw [List.append_nil, dupAfter_nil]
  | cons b2 t2 =>
    cases l1 with
    | nil => rw [List.nil_append, dupAfter_nil]
    | cons b1 t1 =>
      have h2 : (b2 :: t2) ≠ ([] : List JsonBreakpoint) := List.cons_ne_nil b2 t2
      have h1 : (b1 :: t1) ≠ ([] : List JsonBreakpoint) := List.cons_ne_nil b1 t1
      obtain ⟨x1, hx1⟩ := Option.isSome_iff_exists.mp (List.getLast?_isSome.mpr h1)
      obtain ⟨x2, hx2⟩ := Option.isSome_iff_exists.mp (List.getLast?_isSome.mpr h2)
      unfold dupAfter
      rw [List.getLast?_append_of_ne_nil _ h2, hx1, hx2, List.length_append]
      cases o with
      | none => simp
      | some d => simp; omega

/-- Effect of one scanStep on a location-map lookup: a breakpoint filed under
the looked-up key replaces the stored breakpoint and bumps the count; any
other breakpoint leaves the lookup unchanged. -/
theorem lookupLoc_scanStep (acc : LocationPathMap × FunctionNameMap)
    (bp : JsonBreakpoint) (p r : String) :
    lookupLoc (scanStep acc bp).1 p r =
      dupAfter (lookupLoc acc.1 p r)
        (if locKey bp = some (p, r) then [bp] else []) := by
  cases hloc : bp.location with
  | none =>
    have hk : locKey bp = none := by simp [locKey, hloc]
    rw [if_neg (by simp [hk]), dupAfter_nil]
    cases hfn : bp.functionName with
    | none => simp only [scanStep, hloc, hfn]
    | some f => simp only [scanStep, hloc, hfn]
  | some loc =>
    cases hfn : bp.functionName with
    | some f =>
      have hk : locKey bp = none := by simp [locKey, hloc, hfn]
      rw [if_neg (by simp [hk]), dupAfter_nil]
      simp only [scanStep, hloc, hfn]
    | none =>
      have hkey : locKey bp = some (loc.uri.path, toStringRange loc.range) := by
        simp [locKey, hloc, hfn]
      simp only [scanStep, hloc, hfn]
      by_cases hp : loc.uri.path = p
      · subst hp
        by_cases hr : toStringRange loc.range = r
        · subst hr
          rw [if_pos hkey]
          unfold lookupLoc
          rw [mapGet_mapSet_self, Option.some_bind, mapGet_mapSet_self]
          cases hga : mapGet acc.1 loc.uri.path with
          | none => rfl
          | some rm =>
            simp only [Option.getD_some, Option.some_bind]
            cases hgr : mapGet rm (toStringRange loc.range) with
            | none => rfl
            | some d => rfl
        · have hk : ¬ (locKey bp = some (loc.uri.path, r)) := by
            rw [hkey]
            intro hc
            injection hc with hc2
            exact hr (congrArg Prod.snd hc2)
          rw [if_neg hk, dupAfter_nil]
          unfold lookupLoc
          rw [mapGet_mapSet_self, Option.some_bind,
            mapGet_mapSet_ne _ _ _ _ (fun hc => hr hc.symm)]
          cases hga : mapGet acc.1 loc.uri.path with
          | none => rfl
          | some rm => rfl
      · have hk : ¬ (locKey bp = some (p, r)) := by
          rw [hkey]
          intro hc
          injection hc with hc2
          exact hp (congrArg Prod.fst hc2)
        rw [if_neg hk, dupAfter_nil]
        unfold lookupLoc
        rw [mapGet_mapSet_ne _ _ _ _ (fun hc => hp hc.symm)]

/-- Scanning characterization for the location maps: starting from any
accumulator, the entry at key (p, r) after the fold is dupAfter of the old
entry and the scanned breakpoints filed under (p, r). -/
theorem lookupLoc_scan (bps : List JsonBreakpoint)
    (acc : LocationPathMap × FunctionNameMap) (p r : String) :
    lookupLoc (bps.foldl scanStep acc).1 p r =
      dupAfter (lookupLoc acc.1 p r) (bps.filter (locKeyIs p r)) := by
  induction bps generalizing acc with
  | nil => rw [List.foldl_nil, List.filter_nil, dupAfter_nil]
  | cons bp rest ih =>
    rw [List.foldl_cons, ih (scanStep acc bp), lookupLoc_scanStep, dupAfter_append,
      List.filter_cons]
    congr 1
    by_cases h : locKey bp = some (p, r)
    · rw [if_pos h, if_pos (by simp [locKeyIs, h]), List.singleton_append]
    · rw [if_neg h, if_neg (by simp [locKeyIs, h]), List.nil_append]

/-- The location-map entry at a present key holds the last breakpoint filed
under the key and the number of breakpoints filed under it. -/
theorem scanMaps_loc_entry (bps : List JsonBreakpoint) (p r : String)
    (rm : RangeMap) (d : DuplicateBreakpoints)
    (h1 : mapGet (scanMaps bps).1 p = some rm)
    (h2 : mapGet rm r = some d) :
    (bps.filter (locKeyIs p r)).getLast? = some d.breakpoint ∧
    d.count = (bps.filter (locKeyIs p r)).length := by
  have hl : lookupLoc (scanMaps bps).1 p r = some d := by
    unfold lookupLoc
    rw [h1, Option.some_bind, h2]
  rw [scanMaps, lookupLoc_scan bps ([], []) p r] at hl
  have hd : dupAfter none (bps.filter (locKeyIs p r)) = some d := hl
  unfold dupAfter at hd
  cases hlast : (bps.filter (locKeyIs p r)).getLast? with
  | none => rw [hlast] at hd; cases hd
  | some b =>
    rw [hlast] at hd
    cases hd
    exact ⟨rfl, by simp⟩

/-- CLAIM C2 (amended): for every branch list and every (path, stringified
range) key present in the built location map, the retained breakpoint is the
LAST one filed under that key in scan order (later duplicates replace earlier
ones), and the stored count is the total number filed under the key; the
rebuilt list keeps exactly these retained entries. -/
theorem C2_last_duplicate_retained (bps : List JsonBreakpoint) (p r : String)
    (rm : RangeMap) (d : DuplicateBreakpoints)
    (h1 : mapGet (scanMaps bps).1 p = some rm)
    (h2 : mapGet rm r = some d) :
    (bps.filter (locKeyIs p r)).getLast? = some d.breakpoint ∧
    d.count = (bps.filter (locKeyIs p r)).length :=
  scanMaps_loc_entry bps p r rm d h1 h2

/-- Witness for C2's amended statement at the duplicate pair: the retained
entry holds the second breakpoint with count 2. -/
theorem C2_witness :
    ([exC2First, exC2Second].filter (locKeyIs "/b.ts" "[(2, 0), (2, 0)]")).getLast? =
        some (⟨exC2Second, 2⟩ : DuplicateBreakpoints).breakpoint ∧
    (⟨exC2Second, 2⟩ : DuplicateBreakpoints).count =
      ([exC2First, exC2Second].filter (locKeyIs "/b.ts" "[(2, 0), (2, 0)]")).length :=
  C2_last_duplicate_retained [exC2First, exC2Second] "/b.ts" "[(2, 0), (2, 0)]"
    [("[(2, 0), (2, 0)]", ⟨exC2Second, 2⟩)] ⟨exC2Second, 2⟩ (by decide) (by decide)

/-! ## Dedup pass: function-map characterization and scan invariants -/

theorem listAfter_nil (o : Option (List JsonBreakpoint)) : listAfter o [] = o := rfl

theorem listAfter_append (o : Option (List JsonBreakpoint))
    (l1 l2 : List JsonBreakpoint) :
    listAfter (listAfter o l1) l2 = listAfter o (l1 ++ l2) := by
  cases l2 with
  | nil => rw [List.append_nil, listAfter_nil]
  | cons b2 t2 =>
    cases l1 with
    | nil => rw [List.nil_append, listAfter_nil]
    | cons b1 t1 =>
      simp only [listAfter, List.cons_append, Option.getD_some]
      rw [← List.cons_append, List.append_assoc]

/-- Effect of one scanStep on a function-map lookup: a breakpoint filed under
the looked-up name is appended to its list; any other breakpoint leaves the
lookup unchanged. -/
theorem mapGetFun_scanStep (acc : LocationPathMap × FunctionNameMap)
    (bp : JsonBreakpoint) (f : String) :
    mapGet (scanStep acc bp).2 f =
      listAfter (mapGet acc.2 f) (if funKey bp = some f then [bp] else []) := by
  cases hloc : bp.location with
  | some loc =>
    have hk : funKey bp = none := by simp [funKey, hloc]
    rw [if_neg (by simp [hk]), listAfter_nil]
    cases hfn : bp.functionName with
    | none => simp only [scanStep, hloc, hfn]
    | some g => simp only [scanStep, hloc, hfn]
  | none =>
    cases hfn : bp.functionName with
    | none =>
      have hk : funKey bp = none := by simp [funKey, hloc, hfn]
      rw [if_neg (by simp [hk]), listAfter_nil]
      simp only [scanStep, hloc, hfn]
    | some g =>
      have hkey : funKey bp = some g := by simp [funKey, hloc, hfn]
      simp only [scanStep, hloc, hfn]
      by_cases hg : g = f
      · subst hg
        rw [if_pos hkey]
        cases hga : mapGet acc.2 g with
        | none => rw [mapGet_append_right _ _ _ hga]; rfl
        | some arr => rw [mapGet_mapSet_self]; rfl
      · rw [if_neg (by rw [hkey]; intro hc; injection hc with hc2; exact hg hc2),
          listAfter_nil]
        cases hga : mapGet acc.2 g with
        | none => rw [mapGet_append_ne _ _ _ _ (fun hc => hg hc.symm)]
        | some arr => rw [mapGet_mapSet_ne _ _ _ _ (fun hc => hg hc.symm)]

/-- Scanning characterization for the function map: starting from any
accumulator, the list at name f after the fold is the old list extended by
the scanned breakpoints filed under f, in scan order. -/
theorem mapGetFun_scan (bps : List JsonBreakpoint)
    (acc : LocationPathMap × FunctionNameMap) (f : String) :
    mapGet (bps.foldl scanStep acc).2 f =
      listAfter (mapGet acc.2 f) (bps.filter (funKeyIs f)) := by
  induction bps generalizing acc with
  | nil => rw [List.foldl_nil, List.filter_nil, listAfter_nil]
  | cons bp rest ih =>
    rw [List.foldl_cons, ih (scanStep acc bp), mapGetFun_scanStep, listAfter_append,
      List.filter_cons]
    congr 1
    by_cases h : funKey bp = some f
    · rw [if_pos h, if_pos (by simp [funKeyIs, h]), List.singleton_append]
    · rw [if_neg h, if_neg (by simp [funKeyIs, h]), List.nil_append]

/-- The function-map list at a present name is exactly the breakpoints filed
under that name, in scan order (in particular it is non-empty). -/
theorem scanMaps_fun_entry (bps : List JsonBreakpoint) (f : String)
    (arr : List JsonBreakpoint) (h : mapGet (scanMaps bps).2 f = some arr) :
    arr = bps.filter (funKeyIs f) ∧ arr ≠ [] := by
  rw [scanMaps, mapGetFun_scan bps ([], []) f] at h
  have hl : listAfter none (bps.filter (funKeyIs f)) = some arr := h
  unfold listAfter at hl
  cases hflt : bps.filter (funKeyIs f) with
  | nil => rw [hflt] at hl; cases hl
  | cons b t =>
    rw [hflt] at hl
    simp only [Option.getD_none, List.nil_append] at hl
    cases hl
    exact ⟨rfl, List.cons_ne_nil b t⟩

theorem mem_keys_mapSet {β : Type} (m : List (String × β)) (k : String) (v : β)
    (a : String) (h : a ∈ (mapSet m k v).map Prod.fst) :
    a ∈ m.map Prod.fst ∨ a = k := by
  obtain ⟨x, hx, hxa⟩ := List.mem_map.mp h
  rcases mem_mapSet m k v x hx with hm | he
  · exact Or.inl (List.mem_map.mpr ⟨x, hm, hxa⟩)
  · subst he
    exact Or.inr hxa.symm

theorem keys_nodup_mapSet {β : Type} (m : List (String × β)) (k : String) (v : β)
    (h : (m.map Prod.fst).Nodup) : ((mapSet m k v).map Prod.fst).Nodup := by
  induction m with
  | nil => simp [mapSet]
  | cons e rest ih =>
    rw [List.map_cons] at h
    obtain ⟨hnotin, hrest⟩ := List.nodup_cons.mp h
    unfold mapSet
    by_cases he : e.1 = k
    · rw [if_pos he, List.map_cons]
      exact List.nodup_cons.mpr ⟨he ▸ hnotin, hrest⟩
    · rw [if_neg he, List.map_cons]
      refine List.nodup_cons.mpr ⟨?_, ih hrest⟩
      intro hc
      rcases mem_keys_mapSet rest k v e.1 hc with hm | heq
      · exact hnotin hm
      · exact he heq

theorem mapGet_none_not_mem_keys {β : Type} (m : List (String × β)) (k : String)
    (h : mapGet m k = none) : k ∉ m.map Prod.fst := by
  induction m with
  | nil => simp
  | cons e rest ih =>
    rw [mapGet_cons] at h
    by_cases he : e.1 = k
    · rw [if_pos he] at h; cases h
    · rw [if_neg he] at h
      rw [List.map_cons]
      intro hc
      rcases List.mem_cons.mp hc with hc | hc
      · exact he hc.symm
      · exact ih h hc

theorem mapGet_of_mem_nodup {β : Type} (m : List (String × β)) (x : String × β)
    (hmem : x ∈ m) (hnd : (m.map Prod.fst).Nodup) : mapGet m x.1 = some x.2 := by
  induction m with
  | nil => cases hmem
  | cons e rest ih =>
    rw [List.map_cons] at hnd
    obtain ⟨hnotin, hrest⟩ := List.nodup_cons.mp hnd
    rw [mapGet_cons]
    rcases List.mem_cons.mp hmem with he | hm
    · subst he
      rw [if_pos rfl]
    · by_cases hk : e.1 = x.1
      · exact absurd (hk ▸ List.mem_map.mpr ⟨x, hm, rfl⟩) hnotin
      · rw [if_neg hk]
        exact ih hm hrest

/-- Structural invariant of the scan maps: both maps have no duplicate keys,
location entries are keyed by the (path, rangeStr) of the breakpoint they
hold, and function entries are non-empty lists whose head is filed under the
entry's name. -/
def MapsWF (maps : LocationPathMap × FunctionNameMap) : Prop :=
  ((maps.1.map Prod.fst).Nodup ∧
    ∀ prm ∈ maps.1, (prm.2.map Prod.fst).Nodup ∧
      ∀ rd ∈ prm.2, locKey rd.2.breakpoint = some (prm.1, rd.1)) ∧
  ((maps.2.map Prod.fst).Nodup ∧
    ∀ fa ∈ maps.2, ∃ b t, fa.2 = b :: t ∧ funKey b = some fa.1)

theorem mapsWF_scanStep (acc : LocationPathMap × FunctionNameMap)
    (bp : JsonBreakpoint) (h : MapsWF acc) : MapsWF (scanStep acc bp) := by
  obtain ⟨⟨hnd1, hent1⟩, hnd2, hent2⟩ := h
  cases hloc : bp.location with
  | none =>
    cases hfn : bp.functionName with
    | none =>
      simp only [scanStep, hloc, hfn]
      exact ⟨⟨hnd1, hent1⟩, hnd2, hent2⟩
    | some g =>
      simp only [scanStep, hloc, hfn]
      refine ⟨⟨hnd1, hent1⟩, ?_⟩
      cases hga : mapGet acc.2 g with
      | none =>
        constructor
        · rw [List.map_append]
          rw [List.nodup_append]
          refine ⟨hnd2, List.nodup_singleton g, ?_⟩
          intro a ha hb
          rw [List.map_cons, List.map_nil, List.mem_singleton] at hb
          have hb2 : a = g := hb
          exact mapGet_none_not_mem_keys acc.2 g hga (hb2 ▸ ha)
        · intro fa hfa
          rcases List.mem_append.mp hfa with hfa | hfa
          · exact hent2 fa hfa
          · rw [List.mem_singleton] at hfa
            subst hfa
            exact ⟨bp, [], rfl, by simp [funKey, hloc, hfn]⟩
      | some arr =>
        constructor
        · exact keys_nodup_mapSet acc.2 g (arr ++ [bp]) hnd2
        · intro fa hfa
          rcases mem_mapSet acc.2 g (arr ++ [bp]) fa hfa with hfa | hfa
          · exact hent2 fa hfa
          · subst hfa
            obtain ⟨b, t, harr, hb⟩ := hent2 (g, arr) (mapGet_some_mem acc.2 g arr hga)
            have harr2 : arr = b :: t := harr
            exact ⟨b, t ++ [bp], by show arr ++ [bp] = b :: (t ++ [bp]); rw [harr2]; rfl, hb⟩
  | some loc =>
    cases hfn : bp.functionName with
    | some g =>
      simp only [scanStep, hloc, hfn]
      exact ⟨⟨hnd1, hent1⟩, hnd2, hent2⟩
    | none =>
      simp only [scanStep, hloc, hfn]
      refine ⟨⟨keys_nodup_mapSet _ _ _ hnd1, ?_⟩, hnd2, hent2⟩
      intro prm hprm
      have hrmwf : ((mapGet acc.1 loc.uri.path).getD [] |>.map Prod.fst).Nodup ∧
          ∀ rd ∈ (mapGet acc.1 loc.uri.path).getD [],
            locKey rd.2.breakpoint = some (loc.uri.path, rd.1) := by
        cases hga : mapGet acc.1 loc.uri.path with
        | none => simp
        | some rm0 =>
          have hm := mapGet_some_mem acc.1 loc.uri.path rm0 hga
          obtain ⟨ha, hb⟩ := hent1 (loc.uri.path, rm0) hm
          exact ⟨ha, hb⟩
      rcases mem_mapSet acc.1 loc.uri.path _ prm hprm with hprm | hprm
      · exact hent1 prm hprm
      · subst hprm
        constructor
        · exact keys_nodup_mapSet _ _ _ hrmwf.1
        · intro rd hrd
          rcases mem_mapSet _ _ _ rd hrd with hrd | hrd
          · exact hrmwf.2 rd hrd
          · subst hrd
            cases mapGet ((mapGet acc.1 loc.uri.path).getD []) (toStringRange loc.range) <;>
              simp [locKey, hloc, hfn]

theorem mapsWF_scan (bps : List JsonBreakpoint) : MapsWF (scanMaps bps) := by
  rw [scanMaps]
  have h : ∀ acc, MapsWF acc → MapsWF (bps.foldl scanStep acc) := by
    induction bps with
    | nil => exact fun acc h => h
    | cons bp rest ih =>
      intro acc h
      rw [List.foldl_cons]
      exact ih (scanStep acc bp) (mapsWF_scanStep acc bp h)
  refine h ([], []) ⟨⟨List.nodup_nil, ?_⟩, List.nodup_nil, ?_⟩
  · intro prm hprm
    cases hprm
  · intro fa hfa
    cases hfa

theorem funKey_none_of_locKey (b : JsonBreakpoint) (k : String × String)
    (h : locKey b = some k) : funKey b = none := by
  unfold locKey at h
  unfold funKey
  cases hl : b.location <;> cases hf : b.functionName <;> rw [hl, hf] at h
  all_goals first | rfl | cases h

theorem locKey_none_of_funKey (b : JsonBreakpoint) (f : String)
    (h : funKey b = some f) : locKey b = none := by
  unfold funKey at h
  unfold locKey
  cases hl : b.location <;> cases hf : b.functionName <;> rw [hl, hf] at h
  all_goals first | rfl | cases h

/-- Within one rebuilt path group, any location key occurs at most once. -/
theorem group_filter_le_one (p0 : String) (rm : RangeMap)
    (hnd : (rm.map Prod.fst).Nodup)
    (hent : ∀ rd ∈ rm, locKey rd.2.breakpoint = some (p0, rd.1))
    (p r : String) :
    ((rm.map (fun rd => rd.2.breakpoint)).filter (locKeyIs p r)).length ≤ 1 := by
  induction rm with
  | nil => simp
  | cons rd rest ih =>
    rw [List.map_cons] at hnd
    obtain ⟨hnotin, hrest⟩ := List.nodup_cons.mp hnd
    rw [List.map_cons, List.filter_cons]
    by_cases hk : locKeyIs p r rd.2.breakpoint = true
    · rw [if_pos hk]
      have hkey := hent rd (List.mem_cons_self rd rest)
      rw [locKeyIs, decide_eq_true_eq, hkey] at hk
      injection hk with hk2
      have hr0 : rd.1 = r := congrArg Prod.snd hk2
      have hrestnil :
          ((rest.map (fun rd2 => rd2.2.breakpoint)).filter (locKeyIs p r)) = [] := by
        rw [List.filter_eq_nil_iff]
        intro b hb
        obtain ⟨rd2, hrd2, hbeq⟩ := List.mem_map.mp hb
        have hkey2 := hent rd2 (List.mem_cons_of_mem rd hrd2)
        intro hc
        rw [locKeyIs, decide_eq_true_eq, ← hbeq, hkey2] at hc
        injection hc with hc2
        have hr2 : rd2.1 = r := congrArg Prod.snd hc2
        exact hnotin (List.mem_map.mpr ⟨rd2, hrd2, hr2.trans hr0.symm⟩)
      rw [hrestnil]
      simp
    · rw [if_neg hk]
      exact ih hrest (fun rd2 h2 => hent rd2 (List.mem_cons_of_mem rd h2))

/-- Across the whole rebuilt location part, any location key occurs at most
once. -/
theorem locFlat_filter_le_one (lm : LocationPathMap)
    (hnd : (lm.map Prod.fst).Nodup)
    (hent : ∀ prm ∈ lm, (prm.2.map Prod.fst).Nodup ∧
      ∀ rd ∈ prm.2, locKey rd.2.breakpoint = some (prm.1, rd.1))
    (p r : String) :
    ((lm.flatMap (fun prm => prm.2.map (fun rd => rd.2.breakpoint))).filter
      (locKeyIs p r)).length ≤ 1 := by
  induction lm with
  | nil => simp
  | cons prm rest ih =>
    rw [List.flatMap_cons, List.filter_append, List.length_append]
    rw [List.map_cons] at hnd
    obtain ⟨hnotin, hrest⟩ := List.nodup_cons.mp hnd
    obtain ⟨hprmnd, hprment⟩ := hent prm (List.mem_cons_self prm rest)
    by_cases hp : prm.1 = p
    · have hrest0 : ((rest.flatMap
          (fun prm2 => prm2.2.map (fun rd => rd.2.breakpoint))).filter
            (locKeyIs p r)).length = 0 := by
        rw [List.length_eq_zero, List.filter_eq_nil_iff]
        intro b hb
        obtain ⟨prm2, hprm2, hbmem⟩ := List.mem_flatMap.mp hb
        obtain ⟨rd2, hrd2, hbeq⟩ := List.mem_map.mp hbmem
        have hkey2 := (hent prm2 (List.mem_cons_of_mem prm hprm2)).2 rd2 hrd2
        intro hc
        rw [locKeyIs, decide_eq_true_eq, ← hbeq, hkey2] at hc
        injection hc with hc2
        apply hnotin
        have hp2 : prm2.1 = p := congrArg Prod.fst hc2
        rw [hp]
        exact List.mem_map.mpr ⟨prm2, hprm2, hp2⟩
      have h1 := group_filter_le_one prm.1 prm.2 hprmnd hprment p r
      omega
    · have hgrp0 : ((prm.2.map (fun rd => rd.2.breakpoint)).filter
          (locKeyIs p r)).length = 0 := by
        rw [List.length_eq_zero, List.filter_eq_nil_iff]
        intro b hb
        obtain ⟨rd2, hrd2, hbeq⟩ := List.mem_map.mp hb
        have hkey2 := hprment rd2 hrd2
        intro hc
        rw [locKeyIs, decide_eq_true_eq, ← hbeq, hkey2] at hc
        injection hc with hc2
        exact hp (congrArg Prod.fst hc2)
      have h2 := ih hrest (fun prm2 h2 => hent prm2 (List.mem_cons_of_mem prm h2))
      omega

/-- Across the rebuilt function part, any function name occurs at most
once. -/
theorem funFlat_filter_le_one (fm : FunctionNameMap)
    (hnd : (fm.map Prod.fst).Nodup)
    (hent : ∀ fa ∈ fm, ∃ b t, fa.2 = b :: t ∧ funKey b = some fa.1)
    (f : String) :
    ((fm.flatMap (fun fa => fa.2.take 1)).filter (funKeyIs f)).length ≤ 1 := by
  induction fm with
  | nil => simp
  | cons fa rest ih =>
    rw [List.flatMap_cons, List.filter_append, List.length_append]
    rw [List.map_cons] at hnd
    obtain ⟨hnotin, hrest⟩ := List.nodup_cons.mp hnd
    obtain ⟨b, t, hfa2, hb⟩ := hent fa (List.mem_cons_self fa rest)
    have htake : fa.2.take 1 = [b] := by rw [hfa2]; rfl
    by_cases hf : fa.1 = f
    · have hrest0 : ((rest.flatMap (fun fa2 => fa2.2.take 1)).filter
          (funKeyIs f)).length = 0 := by
        rw [List.length_eq_zero, List.filter_eq_nil_iff]
        intro b2 hb2
        obtain ⟨fa2, hfa2m, hbmem⟩ := List.mem_flatMap.mp hb2
        obtain ⟨c, tt, hfa22, hc⟩ := hent fa2 (List.mem_cons_of_mem fa hfa2m)
        have htake2 : fa2.2.take 1 = [c] := by rw [hfa22]; rfl
        rw [htake2, List.mem_singleton] at hbmem
        subst hbmem
        intro hcon
        rw [funKeyIs, decide_eq_true_eq, hc] at hcon
        injection hcon with hc2
        apply hnotin
        rw [hf]
        exact List.mem_map.mpr ⟨fa2, hfa2m, hc2⟩
      have h1 : ((fa.2.take 1).filter (funKeyIs f)).length ≤ 1 := by
        calc ((fa.2.take 1).filter (funKeyIs f)).length
            ≤ (fa.2.take 1).length := List.length_filter_le _ _
          _ ≤ 1 := by rw [htake]; rfl
      omega
    · have hgrp0 : ((fa.2.take 1).filter (funKeyIs f)).length = 0 := by
        rw [htake, List.length_eq_zero, List.filter_eq_nil_iff]
        intro b2 hb2
        rw [List.mem_singleton] at hb2
        subst hb2
        intro hcon
        rw [funKeyIs, decide_eq_true_eq, hb] at hcon
        injection hcon with hc2
        exact hf hc2
      have h2 := ih hrest (fun fa2 h2 => hent fa2 (List.mem_cons_of_mem fa h2))
      omega

/-- Any location key occurs at most once in a rebuilt list. -/
theorem rebuild_filter_loc_le_one (maps : LocationPathMap × FunctionNameMap)
    (hwf : MapsWF maps) (p r : String) :
    ((rebuildBreakpoints maps).filter (locKeyIs p r)).length ≤ 1 := by
  obtain ⟨⟨hnd1, hent1⟩, hnd2, hent2⟩ := hwf
  rw [rebuildBreakpoints, List.filter_append, List.length_append]
  have h1 := locFlat_filter_le_one maps.1 hnd1 hent1 p r
  have h2 : ((maps.2.flatMap (fun fa => fa.2.take 1)).filter
      (locKeyIs p r)).length = 0 := by
    rw [List.length_eq_zero, List.filter_eq_nil_iff]
    intro b hb
    obtain ⟨fa, hfa, hbmem⟩ := List.mem_flatMap.mp hb
    obtain ⟨c, t, hfa2, hc⟩ := hent2 fa hfa
    have htake : fa.2.take 1 = [c] := by rw [hfa2]; rfl
    rw [htake, List.mem_singleton] at hbmem
    subst hbmem
    intro hcon
    rw [locKeyIs, decide_eq_true_eq, locKey_none_of_funKey _ fa.1 hc] at hcon
    cases hcon
  omega

/-- Any function name occurs at most once in a rebuilt list. -/
theorem rebuild_filter_fun_le_one (maps : LocationPathMap × FunctionNameMap)
    (hwf : MapsWF maps) (f : String) :
    ((rebuildBreakpoints maps).filter (funKeyIs f)).length ≤ 1 := by
  obtain ⟨⟨hnd1, hent1⟩, hnd2, hent2⟩ := hwf
  rw [rebuildBreakpoints, List.filter_append, List.length_append]
  have h2 := funFlat_filter_le_one maps.2 hnd2 hent2 f
  have h1 : ((maps.1.flatMap (fun prm => prm.2.map (fun rd => rd.2.breakpoint))).filter
      (funKeyIs f)).length = 0 := by
    rw [List.length_eq_zero, List.filter_eq_nil_iff]
    intro b hb
    obtain ⟨prm, hprm, hbmem⟩ := List.mem_flatMap.mp hb
    obtain ⟨rd, hrd, hbeq⟩ := List.mem_map.mp hbmem
    have hkey := (hent1 prm hprm).2 rd hrd
    intro hcon
    rw [funKeyIs, decide_eq_true_eq, ← hbeq,
      funKey_none_of_locKey rd.2.breakpoint _ hkey] at hcon
    cases hcon
  omega

/-- Re-scanning a rebuilt list finds no key with more than one breakpoint. -/
theorem needsRecreate_scan_rebuild (maps : LocationPathMap × FunctionNameMap)
    (hwf : MapsWF maps) :
    needsRecreateOf (scanMaps (rebuildBreakpoints maps)) = false := by
  obtain ⟨⟨hnd1, hent1⟩, hnd2, hent2⟩ := mapsWF_scan (rebuildBreakpoints maps)
  unfold needsRecreateOf
  rw [Bool.or_eq_false_iff]
  constructor
  · rw [List.any_eq_false]
    intro prm hprm
    rw [Bool.not_eq_true, List.any_eq_false]
    intro rd hrd
    rw [Bool.not_eq_true, decide_eq_false_iff_not]
    intro hcnt
    have hg1 : mapGet (scanMaps (rebuildBreakpoints maps)).1 prm.1 = some prm.2 :=
      mapGet_of_mem_nodup _ prm hprm hnd1
    have hg2 : mapGet prm.2 rd.1 = some rd.2 :=
      mapGet_of_mem_nodup _ rd hrd (hent1 prm hprm).1
    obtain ⟨-, hcount⟩ :=
      scanMaps_loc_entry (rebuildBreakpoints maps) prm.1 rd.1 prm.2 rd.2 hg1 hg2
    have hle := rebuild_filter_loc_le_one maps hwf prm.1 rd.1
    omega
  · rw [List.any_eq_false]
    intro fa hfa
    rw [Bool.not_eq_true, decide_eq_false_iff_not]
    intro hlen
    have hg : mapGet (scanMaps (rebuildBreakpoints maps)).2 fa.1 = some fa.2 :=
      mapGet_of_mem_nodup _ fa hfa hnd2
    obtain ⟨harr, -⟩ := scanMaps_fun_entry (rebuildBreakpoints maps) fa.1 fa.2 hg
    have hle := rebuild_filter_fun_le_one maps hwf fa.1
    rw [← harr] at hle
    omega

/-- The output of one dedupBranch run scans with no duplicate keys. -/
theorem dedupBranch_output_clean (bps : List JsonBreakpoint) :
    needsRecreateOf (scanMaps (dedupBranch bps).1) = false := by
  simp only [dedupBranch]
  by_cases h : needsRecreateOf (scanMaps bps) = true
  · rw [if_pos h]
    exact needsRecreate_scan_rebuild (scanMaps bps) (mapsWF_scan bps)
  · rw [if_neg h]
    exact Bool.eq_false_iff.mpr h

/-- dedupBranch is idempotent: a second run changes nothing and reports no
recreation. -/
theorem dedupBranch_idem (bps : List JsonBreakpoint) :
    dedupBranch (dedupBranch bps).1 = ((dedupBranch bps).1, false) := by
  have h := dedupBranch_output_clean bps
  set l := (dedupBranch bps).1 with hl
  simp only [dedupBranch]
  rw [if_neg (by rw [h]; exact Bool.false_ne_true)]

/-- A map with a non-empty version whose branches are all dedup fixed points
passes through getWorkspaceBreakpoints unchanged, with the recreated flag
false. -/
theorem getWorkspaceBreakpoints_of_clean (bbx : BranchBreakpoints)
    (hver : ¬ (bbx.version = ""))
    (hbr : ∀ br ∈ bbx.branch, dedupBranch br.breakpoints = (br.breakpoints, false))
    (pkg2 : String) :
    getWorkspaceBreakpoints (some bbx) pkg2 = (bbx, false) := by
  obtain ⟨v, brs⟩ := bbx
  simp only [getWorkspaceBreakpoints, Option.getD_some]
  rw [if_neg hver]
  have h1 : brs.map (fun br =>
      ((⟨br.name, (dedupBranch br.breakpoints).1⟩ : Branch),
        (dedupBranch br.breakpoints).2)) =
      brs.map (fun br => (br, false)) := by
    apply List.map_congr_left
    intro br hmem
    rw [hbr br hmem]
  rw [h1]
  refine congrArg₂ Prod.mk ?_ ?_
  · exact congrArg (BranchBreakpoints.mk v)
      (by rw [List.map_map]; exact List.map_id'' (fun x => rfl) brs)
  · refine List.any_eq_false.mpr ?_
    intro x hx
    obtain ⟨br, -, hbrx⟩ := List.mem_map.mp hx
    rw [← hbrx]
    simp

/-- CLAIM C5: the dedup/migration pass is idempotent — feeding the output map
of one getWorkspaceBreakpoints run back in (with any package version) returns
that map unchanged, every branch list untouched, and reports the recreated
flag as false, because after the first run no key has more than one entry. -/
theorem C5_dedup_pass_idempotent (bb : BranchBreakpoints) (pkg pkg2 : String) :
    getWorkspaceBreakpoints (some (getWorkspaceBreakpoints (some bb) pkg).1) pkg2 =
      ((getWorkspaceBreakpoints (some bb) pkg).1, false) := by
  apply getWorkspaceBreakpoints_of_clean
  · simp only [getWorkspaceBreakpoints, Option.getD_some]
    by_cases h : bb.version = ""
    · rw [if_pos h]
      simp
    · rw [if_neg h]
      exact h
  · intro br hmem
    simp only [getWorkspaceBreakpoints, Option.getD_some] at hmem
    by_cases h : bb.version = ""
    · rw [if_pos h] at hmem
      simp at hmem
    · rw [if_neg h] at hmem
      rw [List.map_map] at hmem
      obtain ⟨orig, -, hbr⟩ := List.mem_map.mp hmem
      rw [← hbr]
      exact dedupBranch_idem orig.breakpoints
